import Mathlib

/-!
gomoss: submission framing and report extraction.

A shallow embedding of `moss.go` and `report.go`.

* Go functions that may panic return an `Outcome`.
* The network, the file system and the HTML library are explicit parameters
  (`Net`, `Web`, `Disk`): what a read or a fetch delivers is given, what the
  program writes or requests is collected in a log.
* Library functions (`strings`, `strconv`, `regexp`) are modelled after their
  documented behaviour on the arguments the package passes.
* `ctx.Done()` is polled at fixed checkpoints; a context is the function that
  tells, for the k-th poll of a call, whether the channel is closed.
* In `moss.go` text is only copied to the wire, so a Go `string` is the byte
  sequence it is.  In `report.go` text is inspected by character, so it is a
  list of characters.
-/

namespace Gomoss

/-! ## Shared types -/

/-- One byte on the wire. -/
abbrev Byte := UInt8

/-- The bytes of an ASCII literal, `[]byte("...")`. -/
def ascii (s : String) : List Byte := s.toList.map (fun c => UInt8.ofNat c.toNat)

/-- The verb `%d` of `fmt.Sprintf` on a non-negative integer, as characters. -/
def fmtD (n : Nat) : List Char := Nat.toDigits 10 n

/-- The verb `%d` of `fmt.Sprintf` on a non-negative integer, as bytes. -/
def fmtDBytes (n : Nat) : List Byte := (fmtD n).map (fun c => UInt8.ofNat c.toNat)

/-- Error values of the package and of the libraries it calls. -/
inductive Error
  /-- The value `ErrLanguageNotSupported` of `moss.go`. -/
  | ErrLanguageNotSupported
  /-- The value `ErrInvalidRegion` of `report.go`. -/
  | ErrInvalidRegion
  /-- A `*strconv.NumError` wrapping `strconv.ErrSyntax`. -/
  | numErrSyntactic
  /-- A `*strconv.NumError` wrapping `strconv.ErrRange`. -/
  | numErrRange
  /-- An error built by `fmt.Errorf` from a format string. -/
  | errorf (format : String)
  /-- An error of the network, the file system or `net/url`. -/
  | external (tag : Nat)
  deriving DecidableEq, Repr

/-- A Go call either returns or panics. -/
inductive Outcome (α : Type)
  | ret (a : α)
  | panic
  deriving DecidableEq, Repr

deriving instance DecidableEq for Except

/-- The fields of `url.URL` the package touches: `Path`, and everything else
(scheme, host, ...) as one value. -/
structure URL where
  Origin : String
  Path : List Char
  deriving DecidableEq, Repr

/-! ## moss.go -/

/-- Type `Address`: end point of the server. -/
structure Address where
  Host : String
  Port : String
  deriving DecidableEq, Repr

/-- Type `code`: `reader` is what `ioutil.ReadAll` yields for the source's reader. -/
structure code where
  reader : Except Error (List Byte)
  displayName : List Byte

/-- Type `codeList`. -/
structure codeList where
  list : List code

/-- Type `MossRequest`; unsigned fields hold values of their Go type. -/
structure MossRequest where
  ID : Nat
  Language : List Byte
  IgnoreLimit : Nat
  Comment : List Byte
  EndPoint : Address
  ExperimentalServer : Nat
  MatchingNumber : Nat
  DirectoryMode : Nat
  Code : codeList
  BaseCode : codeList

/-- Function `NewRequest` (moss.go 63-74). -/
def NewRequest (userID : Nat) : MossRequest :=
  { ID := userID
    Language := ascii "c"
    IgnoreLimit := 10
    Comment := ascii ""
    EndPoint := ⟨"moss.stanford.edu", "7690"⟩
    ExperimentalServer := 0
    MatchingNumber := 250
    DirectoryMode := 0
    Code := ⟨[]⟩
    BaseCode := ⟨[]⟩ }

/-- Method `codeList.Add` (moss.go 77-79). -/
def codeList.Add (c : codeList) (reader : Except Error (List Byte)) (displayName : List Byte) :
    codeList :=
  ⟨c.list ++ [⟨reader, displayName⟩]⟩

/-- The header `fmt.Sprintf("file %d %s %d %s\n", index, lang, len(buff), displayName)`. -/
def fileHeader (index : Nat) (lang : List Byte) (len : Nat) (displayName : List Byte) :
    List Byte :=
  ascii "file " ++ fmtDBytes index ++ ascii " " ++ lang ++ ascii " " ++ fmtDBytes len ++
    ascii " " ++ displayName ++ ascii "\n"

/-- Function `uploadFile` (moss.go 82-91): the bytes written so far, extended, and the
returned error. -/
def uploadFile (conn : List Byte) (c : code) (lang : List Byte) (index : Nat) :
    List Byte × Option Error :=
  match c.reader with
  | .error err => (conn, some err)
  | .ok buff => (conn ++ fileHeader index lang buff.length c.displayName ++ buff, none)

/-- What the server side of the connection does during one `Submit`. -/
structure Net where
  /-- The error of `net.Dial`, if any. -/
  dialErr : Option Error
  /-- What `conn.Read(buff)` delivers after the directives: an error, or the
  bytes copied into the front of `buff`. -/
  ack : Except Error (List Byte)
  /-- The text of the line `scanner.Scan()` reads. -/
  line : List Byte
  /-- The library call `url.Parse`. -/
  urlParse : List Byte → Except Error URL

/-- The buffer after `buff := make([]byte, 1024); conn.Read(buff)`: the bytes
delivered, then the zero bytes the read did not overwrite. -/
def ackBuffer (delivered : List Byte) : List Byte :=
  delivered.take 1024 ++ List.replicate (1024 - (delivered.take 1024).length) 0

/-- The six directive lines (moss.go 102-107). -/
def directives (request : MossRequest) : List Byte :=
  (ascii "moss " ++ fmtDBytes request.ID ++ ascii "\n") ++
  (ascii "directory " ++ fmtDBytes request.DirectoryMode ++ ascii "\n") ++
  (ascii "X " ++ fmtDBytes request.ExperimentalServer ++ ascii "\n") ++
  (ascii "maxmatches " ++ fmtDBytes request.IgnoreLimit ++ ascii "\n") ++
  (ascii "show " ++ fmtDBytes request.MatchingNumber ++ ascii "\n") ++
  (ascii "language " ++ request.Language ++ ascii "\n")

/-- The loop over `request.BaseCode.list` (moss.go 120-127): the bytes written
and whether `ctx.Done()` fired.  `poll` numbers the checkpoint. -/
def uploadBaseCode (ctx : Nat → Bool) (lang : List Byte) :
    List code → Nat → List Byte → List Byte × Bool
  | [], _, conn => (conn, false)
  | c :: rest, poll, conn =>
    if ctx poll then (conn, true)
    else uploadBaseCode ctx lang rest (poll + 1) (uploadFile conn c lang 0).1

/-- The loop over `request.Code.list` (moss.go 129-136); `index` is the loop
variable of `range`. -/
def uploadCode (ctx : Nat → Bool) (lang : List Byte) :
    List code → Nat → Nat → List Byte → List Byte × Bool
  | [], _, _, conn => (conn, false)
  | c :: rest, index, poll, conn =>
    if ctx poll then (conn, true)
    else uploadCode ctx lang rest (index + 1) (poll + 1) (uploadFile conn c lang (index + 1)).1

/-- What one call of `Submit` leaves behind. -/
structure Submitted where
  /-- All bytes written to the connection, in order. -/
  written : List Byte
  url : Option URL
  err : Option Error
  deriving DecidableEq

/-- Method `MossRequest.Submit` (moss.go 94-150).  When `net.Dial` fails `conn` is a
nil interface and `defer conn.Close()` panics before the error is returned. -/
def Submit (request : MossRequest) (net : Net) (ctx : Nat → Bool) : Outcome Submitted :=
  match net.dialErr with
  | some _ => .panic
  | none =>
    let conn := directives request
    match net.ack with
    | .error err => .ret ⟨conn, none, some err⟩
    | .ok delivered =>
      if ackBuffer delivered = ascii "yes" then
        .ret ⟨conn, none, some .ErrLanguageNotSupported⟩
      else
        match uploadBaseCode ctx request.Language request.BaseCode.list 0 conn with
        | (conn, true) => .ret ⟨conn, none, none⟩
        | (conn, false) =>
          match uploadCode ctx request.Language request.Code.list 0
              request.BaseCode.list.length conn with
          | (conn, true) => .ret ⟨conn, none, none⟩
          | (conn, false) =>
            let conn := conn ++ (ascii "query 0 " ++ request.Comment ++ ascii "\n")
            let urlText := net.line
            let conn := conn ++ ascii "end\n"
            match net.urlParse urlText with
            | .error err => .ret ⟨conn, none, some err⟩
            | .ok urlStruct => .ret ⟨conn, some urlStruct, none⟩

/-! ## report.go: data -/

/-- Text of `report.go`: a list of characters. -/
abbrev Text := List Char

/-- Type `Region`: similarity from line `From` to line `To`. -/
structure Region where
  From : Int
  To : Int
  deriving DecidableEq, Repr

/-- Type `Source`.  `Similarity` is a `float64` in the code; its arithmetic is
modelled exactly, in the rationals (rounding is not modelled). -/
structure Source where
  Filename : Text
  Similarity : ℚ
  Regions : List Region
  deriving DecidableEq

/-- Type `Match`. -/
structure Match where
  Left : Source
  Right : Source
  deriving DecidableEq

/-- Type `Report`. -/
structure Report where
  Matches : List Match
  deriving DecidableEq

/-! ## Library functions used by report.go -/

/-- Library `strings.Contains(s, substr)`. -/
def stringsContains : Text → Text → Bool
  | [], substr => substr.isEmpty
  | c :: cs, substr => substr.isPrefixOf (c :: cs) || stringsContains cs substr

/-- Library `strings.Split(s, sep)` for a one-character separator: the pieces
between the occurrences of `sep`; one piece when there is none. -/
def stringsSplit (sep : Char) : Text → List Text
  | [] => [[]]
  | c :: cs =>
    if c = sep then [] :: stringsSplit sep cs
    else
      match stringsSplit sep cs with
      | [] => [[c]]
      | piece :: pieces => (c :: piece) :: pieces

/-- Function `lower(c)` of strconv: `c | ('x' - 'X')`. -/
def lower (c : Char) : Nat := c.toNat ||| 32

/-- The digit value strconv.ParseUint gives a byte, if any. -/
def digitOf (c : Char) : Option Nat :=
  if 48 ≤ c.toNat ∧ c.toNat ≤ 57 then some (c.toNat - 48)
  else if 97 ≤ lower c ∧ lower c ≤ 122 then some (lower c - 97 + 10)
  else none

/-- The digit loop of library `strconv.ParseUint(s, 10, bitSize)` with
`maxVal = 1<<bitSize - 1`, on `uint64` arithmetic: value and error. -/
def ParseUintLoop (maxVal : Nat) : Text → Nat → Nat × Option Error
  | [], n => (n, none)
  | c :: cs, n =>
    match digitOf c with
    | none => (0, some .numErrSyntactic)
    | some d =>
      if d ≥ 10 then (0, some .numErrSyntactic)
      else if n ≥ (2 ^ 64 - 1) / 10 + 1 then (maxVal, some .numErrRange)
      else
        let n10 := (n * 10) % 2 ^ 64
        let n1 := (n10 + d) % 2 ^ 64
        if n1 < n10 ∨ n1 > maxVal then (maxVal, some .numErrRange)
        else ParseUintLoop maxVal cs n1

/-- Library `strconv.ParseUint(s, 10, bitSize)`. -/
def ParseUint (s : Text) (bitSize : Nat) : Nat × Option Error :=
  if s = [] then (0, some .numErrSyntactic)
  else ParseUintLoop (2 ^ bitSize - 1) s 0

/-- Library `strconv.ParseInt(s, 10, bitSize)`: value and error. -/
def ParseInt (s : Text) (bitSize : Nat) : Int × Option Error :=
  match s with
  | [] => (0, some .numErrSyntactic)
  | c0 :: rest =>
    let neg : Bool := c0 = '-'
    let s1 := if c0 = '+' ∨ c0 = '-' then rest else s
    match ParseUint s1 bitSize with
    | (_, some .numErrSyntactic) => (0, some .numErrSyntactic)
    | (un, _) =>
      let cutoff : Nat := 2 ^ (bitSize - 1)
      if !neg ∧ un ≥ cutoff then ((cutoff : Int) - 1, some .numErrRange)
      else if neg ∧ un > cutoff then (-(cutoff : Int), some .numErrRange)
      else (if neg then -(un : Int) else (un : Int), none)

/-- Whether `c` is matched by the class `[0-9]`. -/
def isDigit (c : Char) : Bool := 48 ≤ c.toNat && c.toNat ≤ 57

/-- Library `regexp.MustCompile("[0-9]+%").FindString(s)`: the leftmost match,
a maximal run of digits followed by `%`; empty when there is none. -/
def findPercent : Text → Text
  | [] => []
  | c :: cs =>
    if isDigit c = true ∧ (cs.dropWhile isDigit).head? = some '%' then
      c :: cs.takeWhile isDigit ++ ['%']
    else findPercent cs

/-- The decimal value of a run of digits. -/
def digitsValue (s : Text) : Nat := s.foldl (fun n c => 10 * n + (c.toNat - 48)) 0

/-- Library `strconv.ParseFloat(s, 64)` on the strings parsePercentage passes,
runs of decimal digits: the number read (exactly, see `Source`), or a range
error when it rounds beyond the largest finite float64. -/
def ParseFloat (s : Text) : ℚ × Option Error :=
  if s = [] ∨ ¬ s.all isDigit then (0, some .numErrSyntactic)
  else if digitsValue s ≥ 2 ^ 1024 - 2 ^ 970 then (0, some .numErrRange)
  else ((digitsValue s : ℚ), none)

/-- For the text after ` (`: the length of the longest prefix that stays on
the line and ends in `)`, the greedy match of `.*\)`. -/
def lastParen : Text → Option Nat
  | [] => none
  | c :: cs =>
    if c = '\n' then none
    else
      match lastParen cs with
      | some k => some (k + 1)
      | none => if c = ')' then some 1 else none

/-- The length of the match of the regexp ` \(.*\)` that starts at the head
of the text, if there is one. -/
def parenMatch : Text → Option Nat
  | c :: d :: rest => if c = ' ' ∧ d = '(' then (lastParen rest).map (· + 2) else none
  | _ => none

/-- Library `regexp.MustCompile(" \(.*\)").ReplaceAllString(s, "")`: scan from
the left, drop each match found, go on after it.  `skip` counts the
characters of the current match still to drop. -/
def removeParens : Nat → Text → Text
  | _, [] => []
  | skip + 1, _ :: cs => removeParens skip cs
  | 0, c :: cs =>
    match parenMatch (c :: cs) with
    | some k => removeParens (k - 1) cs
    | none => c :: removeParens 0 cs

/-! ## report.go: parsing -/

/-- Function `parseRegion` (report.go 124-141). -/
def parseRegion (text : Text) : Except Error Region :=
  match stringsSplit '-' text with
  | [chunk0, chunk1] =>
    match ParseInt chunk0 32 with
    | (_, some err) => .error err
    | (from_, none) =>
      match ParseInt chunk1 32 with
      | (_, some err) => .error err
      | (to_, none) => .ok ⟨from_, to_⟩
  | _ => .error .ErrInvalidRegion

/-- Function `parsePercentage` (report.go 143-150).  When the regexp finds nothing
`valueStr` is empty and the slice `valueStr[:len(valueStr)-1]` panics. -/
def parsePercentage (s : Text) : Outcome (Except Error ℚ) :=
  let valueStr := findPercent s
  if valueStr = [] then .panic
  else
    match ParseFloat valueStr.dropLast with
    | (_, some err) => .ret (.error err)
    | (value, none) => .ret (.ok (value / 100))

/-- Function `parseFilename` (report.go 152-155). -/
def parseFilename (s : Text) : Text := removeParens 0 s

/-! ## report.go: the web and the disk -/

/-- The HTTP and HTML libraries, as far as `report.go` uses them. -/
structure Web where
  /-- Library `soup.Get(ref.String())`: the body, or an error. -/
  get : URL → Except Error Text
  /-- The value `Attrs()["href"]` of each element of `soup.HTMLParse(body).FindAll("a")`. -/
  hrefs : Text → List Text
  /-- The value `Text()` of each element of `soup.HTMLParse(body).FindAll("a")`. -/
  anchorTexts : Text → List Text
  /-- The value `Text()` of each element of `soup.HTMLParse(body).FindAll("th")`. -/
  headerTexts : Text → List Text
  /-- Library `ref.Parse(rawurl)` of `net/url`. -/
  parse : URL → Text → Except Error URL
  /-- The regexp replacement of `DownloadURL` (report.go 82-83). -/
  stripResultURL : Text → Text

/-- The file system, as far as `report.go` uses it. -/
structure Disk where
  /-- Library `os.Stat(name)`: an error, or whether the mode is a directory. -/
  stat : Text → Except Error Bool
  /-- Library `os.Create(name)`: its error, if any. -/
  create : Text → Option Error
  /-- Writing the content to the created file: its error, if any. -/
  write : Text → Text → Option Error
  /-- Library `path.Join(dir, name)`. -/
  join : Text → Text → Text

/-- What `report.go` asks of the web and the disk, in order. -/
inductive Event
  | get (ref : URL)
  | create (filename : Text)
  | write (filename : Text) (content : Text)
  deriving DecidableEq, Repr

/-- Function `mustParse` (report.go 43-49). -/
def mustParse (web : Web) (url : URL) (rawurl : Text) : Outcome URL :=
  match web.parse url rawurl with
  | .error _ => .panic
  | .ok u => .ret u

/-- The loop of `findLinks` (report.go 59-65); `exist` holds the keys the map
sends to `true`. -/
def findLinksLoop : List Text → List Text → List Text → List Text
  | [], _, links => links
  | link :: anchors, exist, links =>
    if stringsContains link "match".toList && !(exist.contains link) then
      findLinksLoop anchors (link :: exist) (links ++ [link])
    else findLinksLoop anchors exist links

/-- Function `findLinks` (report.go 52-67), on the hrefs of the anchors of the page. -/
def findLinksOf (hrefs : List Text) : List Text := findLinksLoop hrefs [] []

/-- Function `findLinks` (report.go 52-67); the error of `soup.Get` is dropped and the
body is then empty. -/
def findLinks (web : Web) (ref : URL) : List Text :=
  let resp := match web.get ref with
    | .ok body => body
    | .error _ => []
  findLinksOf (web.hrefs resp)

/-- Function `DownloadURL` (report.go 70-91): the log, extended, and the returned error. -/
def DownloadURL (web : Web) (disk : Disk) (log : List Event) (ref : URL) (filename : Text) :
    List Event × Option Error :=
  match web.get ref with
  | .error err => (log ++ [.get ref], some err)
  | .ok resp =>
    match disk.create filename with
    | some err => (log ++ [.get ref, .create filename], some err)
    | none =>
      let resp := web.stripResultURL resp
      (log ++ [.get ref, .create filename, .write filename resp], disk.write filename resp)

/-- One statement `DownloadURL(mustParse(ref, filename), path.Join(dirName, filename))`
of `Download`; the error of `DownloadURL` is dropped. -/
def downloadTo (web : Web) (disk : Disk) (dirName : Text) (ref : URL) (filename : Text)
    (log : List Event) : Outcome (List Event) :=
  match mustParse web ref filename with
  | .panic => .panic
  | .ret u => .ret (DownloadURL web disk log u (disk.join dirName filename)).1

/-- Sequencing of calls that may panic. -/
def Outcome.andThen {α β : Type} (o : Outcome α) (f : α → Outcome β) : Outcome β :=
  match o with
  | .panic => .panic
  | .ret a => f a

/-- The loop of `Download` (report.go 106-120).  `ref` is a pointer: the path
assigned in one round is still there in the next. -/
def downloadLoop (web : Web) (disk : Disk) (ctx : Nat → Bool) (dirName : Text) :
    List Text → Nat → URL → List Event → Outcome (List Event)
  | [], _, _, log => .ret log
  | _ :: links, index, ref, log =>
    if ctx index then .ret log
    else
      let filename := "match".toList ++ fmtD index ++ ".html".toList
      (downloadTo web disk dirName ref filename log).andThen fun log =>
      let ref := { ref with Path := "match".toList ++ fmtD index ++ "-top.html".toList }
      (downloadTo web disk dirName ref filename log).andThen fun log =>
      let ref := { ref with Path := "match".toList ++ fmtD index ++ "-0.html".toList }
      (downloadTo web disk dirName ref filename log).andThen fun log =>
      let ref := { ref with Path := "match".toList ++ fmtD index ++ "-1.html".toList }
      (downloadTo web disk dirName ref filename log).andThen fun log =>
      downloadLoop web disk ctx dirName links (index + 1) ref log

/-- What one call of `Download` leaves behind. -/
structure Downloaded where
  log : List Event
  err : Option Error
  deriving DecidableEq

/-- Function `Download` (report.go 94-122). -/
def Download (web : Web) (disk : Disk) (ctx : Nat → Bool) (ref : URL) (dirName : Text) :
    Outcome Downloaded :=
  match disk.stat dirName with
  | .error err => .ret ⟨[], some err⟩
  | .ok false => .ret ⟨[], some (.errorf "Dir is not directory")⟩
  | .ok true =>
    let links := findLinks web ref
    let log := [Event.get ref]
    (downloadTo web disk dirName ref "index.html".toList log).andThen fun log =>
    (downloadLoop web disk ctx dirName links 0 ref log).andThen fun log =>
    .ret ⟨log, none⟩

/-! ## report.go: Extract -/

/-- The body of the loop over the anchors (report.go 199-206): `a0` is
`anchors[idx].Text()`, `a2` is `anchors[idx+2].Text()` when `idx+2` is in
range; indexing out of range panics. -/
def regionPair (a0 : Text) (a2 : Option Text) : Outcome (Except Error (Region × Region)) :=
  match parseRegion a0 with
  | .error _ => .ret (.error (.errorf "Unable to recognize line number"))
  | .ok leftRegion =>
    match a2 with
    | none => .panic
    | some a2 =>
      match parseRegion a2 with
      | .error _ => .ret (.error (.errorf "Unable to line number"))
      | .ok rightRegion => .ret (.ok (leftRegion, rightRegion))

/-- The loop over the anchors of a match page (report.go 198-210), on the
anchors from `idx` on: the regions collected, or the error returned. -/
def regionLoop : List Text → List Region → List Region →
    Outcome (Except Error (List Region × List Region))
  | [], left, right => .ret (.ok (left, right))
  | a0 :: rest, left, right =>
    match regionPair a0 rest[1]? with
    | .panic => .panic
    | .ret (.error err) => .ret (.error err)
    | .ret (.ok (leftRegion, rightRegion)) =>
      match rest with
      | _ :: _ :: _ :: rest4 =>
        regionLoop rest4 (left ++ [leftRegion]) (right ++ [rightRegion])
      | _ => .ret (.ok (left ++ [leftRegion], right ++ [rightRegion]))

/-- One round of the loop of `Extract` after the fetch (report.go 177-211):
the match built from the header texts and the anchor texts of the page. -/
def extractMatch (headers anchors : List Text) : Outcome (Except Error Match) :=
  match headers[0]? with
  | none => .panic
  | some h0 =>
    match parsePercentage h0 with
    | .panic => .panic
    | .ret (.error err) => .ret (.error err)
    | .ret (.ok leftSimilarity) =>
      match headers[2]? with
      | none => .panic
      | some h2 =>
        match parsePercentage h2 with
        | .panic => .panic
        | .ret (.error err) => .ret (.error err)
        | .ret (.ok rightSimilarity) =>
          match regionLoop anchors [] [] with
          | .panic => .panic
          | .ret (.error err) => .ret (.error err)
          | .ret (.ok (left, right)) =>
            .ret (.ok
              { Left := ⟨parseFilename h0, leftSimilarity, left⟩
                Right := ⟨parseFilename h2, rightSimilarity, right⟩ })

/-- What one call of `Extract` leaves behind. -/
structure Extracted where
  /-- The URLs of the match pages requested, in order. -/
  fetched : List URL
  report : Option Report
  err : Option Error
  deriving DecidableEq

/-- The loop of `Extract` (report.go 163-213) over the links left, with the
loop variable `index`, which is also the number of the checkpoint. -/
def extractLoop (web : Web) (ctx : Nat → Bool) :
    List Text → Nat → URL → Report → List URL → Outcome Extracted
  | [], _, _, report, fetched => .ret ⟨fetched, some report, none⟩
  | _ :: links, index, ref, report, fetched =>
    if ctx index then .ret ⟨fetched, none, none⟩
    else
      let ref := { ref with Path := "match".toList ++ fmtD index ++ "-top.html".toList }
      let fetched := fetched ++ [ref]
      match web.get ref with
      | .error _ => .ret ⟨fetched, none, some (.errorf "Unable to get url %s")⟩
      | .ok res =>
        match extractMatch (web.headerTexts res) (web.anchorTexts res) with
        | .panic => .panic
        | .ret (.error err) => .ret ⟨fetched, none, some err⟩
        | .ret (.ok m) =>
          extractLoop web ctx links (index + 1) ref ⟨report.Matches ++ [m]⟩ fetched

/-- Function `Extract` (report.go 158-215). -/
def Extract (web : Web) (ctx : Nat → Bool) (ref : URL) : Outcome Extracted :=
  extractLoop web ctx (findLinks web ref) 0 ref ⟨[]⟩ []

/-! ## Concrete inputs -/

/-- A server that accepts the connection, answers `no` and sends a result line. -/
def sampleNet : Net :=
  { dialErr := none
    ack := .ok (ascii "no")
    line := ascii "http://moss.stanford.edu/results/1"
    urlParse := fun _ => .ok ⟨"http://moss.stanford.edu", "/results/1".toList⟩ }

/-- A server that answers the directives with the three bytes `yes`. -/
def yesNet : Net := { sampleNet with ack := .ok (ascii "yes") }

/-- A context that is never cancelled. -/
def background : Nat → Bool := fun _ => false

/-- The request `NewRequest(1)` with one code source `a.c` holding `int x;`. -/
def oneFileRequest : MossRequest :=
  { NewRequest 1 with Code := (NewRequest 1).Code.Add (.ok (ascii "int x;")) (ascii "a.c") }

/-- The address of a result site without a directory part, as in the tests. -/
def sampleRef : URL := ⟨"http://127.0.0.1:8080", []⟩

/-- The body of the index page of the sample site. -/
def indexBody : Text := "<index>".toList

/-- A result site: the page at the empty path is the index page, the body of
any other page is its path; the index page links to two matches, the first
one twice, and to the home page; every other page is a match page with three
header cells and two groups of four anchors. -/
def sampleWeb : Web :=
  { get := fun u => if u.Path = [] then .ok indexBody else .ok u.Path
    hrefs := fun body =>
      if body = indexBody then
        ["match0.html".toList, "match1.html".toList, "match0.html".toList,
          "http://moss.stanford.edu/".toList]
      else []
    anchorTexts := fun body =>
      if body = indexBody ∨ body = [] then []
      else ["1-5".toList, "x".toList, "10-12".toList, "x".toList,
            "6-6".toList, "x".toList, "13-20".toList, "x".toList]
    headerTexts := fun body =>
      if body = indexBody ∨ body = [] then []
      else ["gomoss/codes/aaa.cpp (82%)".toList, [], "gomoss/codes/bbb.cpp (79%)".toList]
    parse := fun ref rawurl => .ok { ref with Path := '/' :: rawurl }
    stripResultURL := fun body => body }

/-- A disk on which every directory exists and every write succeeds. -/
def sampleDisk : Disk :=
  { stat := fun _ => .ok true
    create := fun _ => none
    write := fun _ _ => none
    join := fun dir name => dir ++ '/' :: name }

/-- A context cancelled between the checkpoints 0 and 1. -/
def cancelledAt1 : Nat → Bool := fun k => decide (1 ≤ k)

/-- The match page of index `j`, as `Extract` addresses it. -/
def matchPage (ref : URL) (j : Nat) : URL :=
  { ref with Path := "match".toList ++ fmtD j ++ "-top.html".toList }

/-- The match every match page of `sampleWeb` holds. -/
def sampleMatch : Match :=
  { Left := ⟨"gomoss/codes/aaa.cpp".toList, 82 / 100, [⟨1, 5⟩, ⟨6, 6⟩]⟩
    Right := ⟨"gomoss/codes/bbb.cpp".toList, 79 / 100, [⟨10, 12⟩, ⟨13, 20⟩]⟩ }

/-- The decimal text of an integer, as `strconv.Itoa` and `%d` write it. -/
def decimalText (a : Int) : Text :=
  if a < 0 then '-' :: fmtD a.natAbs else fmtD a.natAbs

/-- A region token formatted from two integers: the decimal text of `a`, a
`-`, the decimal text of `b`. -/
def regionToken (a b : Int) : Text := decimalText a ++ '-' :: decimalText b

/-- The descriptor text of a header cell: the display name, a space and the
percentage in parentheses. -/
def descriptor (name : Text) (p : Nat) : Text :=
  name ++ (' ' :: '(' :: (fmtD p ++ ['%', ')']))

/-- The value a call returned, if it returned. -/
def Outcome.returned {α : Type} : Outcome α → Option α
  | .ret a => some a
  | .panic => none

/-- The names of the files a log creates, in order. -/
def createdFiles : List Event → List Text
  | [] => []
  | .create filename :: rest => filename :: createdFiles rest
  | _ :: rest => createdFiles rest

/-- The URLs a log requests, in order. -/
def requested : List Event → List URL
  | [] => []
  | .get ref :: rest => ref :: requested rest
  | _ :: rest => requested rest

/-- A source whose reader delivers `content` without error. -/
def readable (p : List Byte × List Byte) : code := ⟨.ok p.1, p.2⟩

/-- The record of one source on the wire: header, then content. -/
def fileRecord (lang : List Byte) (index : Nat) (p : List Byte × List Byte) : List Byte :=
  fileHeader index lang p.1.length p.2 ++ p.1

/-! ## moss.go: theorems -/

theorem uploadBaseCode_background (ctx : Nat → Bool) (hctx : ∀ k, ctx k = false)
    (lang : List Byte) (base : List (List Byte × List Byte)) :
    ∀ (poll : Nat) (conn : List Byte),
      uploadBaseCode ctx lang (base.map readable) poll conn =
        (conn ++ (base.map (fileRecord lang 0)).flatten, false) := by
  induction base with
  | nil => intro poll conn; simp [uploadBaseCode]
  | cons p rest ih =>
    intro poll conn
    simp [uploadBaseCode, hctx, ih, uploadFile, readable, fileRecord, List.append_assoc]

theorem uploadCode_background (ctx : Nat → Bool) (hctx : ∀ k, ctx k = false)
    (lang : List Byte) (codes : List (List Byte × List Byte)) :
    ∀ (index poll : Nat) (conn : List Byte),
      uploadCode ctx lang (codes.map readable) index poll conn =
        (conn ++ ((codes.enumFrom (index + 1)).map
          (fun ip => fileRecord lang ip.1 ip.2)).flatten, false) := by
  induction codes with
  | nil => intro index poll conn; simp [uploadCode]
  | cons p rest ih =>
    intro index poll conn
    simp [uploadCode, hctx, ih, uploadFile, readable, fileRecord, List.append_assoc,
      List.enumFrom]

theorem ackBuffer_length (delivered : List Byte) : (ackBuffer delivered).length = 1024 := by
  simp only [ackBuffer, List.length_append, List.length_replicate, List.length_take]
  omega

theorem ackBuffer_ne_yes (delivered : List Byte) : ackBuffer delivered ≠ ascii "yes" := by
  intro h
  have h1 := ackBuffer_length delivered
  rw [h] at h1
  revert h1
  decide

/-- C1: with a connection that opens, an acknowledgment read without error, a
context never cancelled and B base and N code sources whose readers deliver
their content, `Submit` returns and has written the six directive lines, then
one record per base source in order with index 0, then one record per code
source in order with indices 1..N, then the `query` line and `end`; each record
is the header `file <i> <Language> <len> <displayName>` with `len` the number
of bytes read, followed by exactly those bytes. -/
theorem Submit_file_records (request : MossRequest) (net : Net) (ctx : Nat → Bool)
    (delivered : List Byte) (base codes : List (List Byte × List Byte))
    (hdial : net.dialErr = none) (hack : net.ack = .ok delivered)
    (hctx : ∀ k, ctx k = false)
    (hbase : request.BaseCode.list = base.map readable)
    (hcode : request.Code.list = codes.map readable) :
    ∃ out, Submit request net ctx = .ret out ∧
      out.written = directives request ++
        (base.map (fileRecord request.Language 0)).flatten ++
        ((codes.enumFrom 1).map (fun ip => fileRecord request.Language ip.1 ip.2)).flatten ++
        (ascii "query 0 " ++ request.Comment ++ ascii "\n") ++ ascii "end\n" := by
  have hb := uploadBaseCode_background ctx hctx request.Language base
  have hc := uploadCode_background ctx hctx request.Language codes
  cases hp : net.urlParse net.line <;>
    simp [Submit, hdial, hack, ackBuffer_ne_yes, hbase, hcode, hb, hc, hp]

theorem Submit_file_records_witness :
    ∃ out, Submit oneFileRequest sampleNet background = .ret out ∧
      out.written = directives oneFileRequest ++
        (([] : List (List Byte × List Byte)).map
          (fileRecord oneFileRequest.Language 0)).flatten ++
        (([(ascii "int x;", ascii "a.c")].enumFrom 1).map
          (fun ip => fileRecord oneFileRequest.Language ip.1 ip.2)).flatten ++
        (ascii "query 0 " ++ oneFileRequest.Comment ++ ascii "\n") ++ ascii "end\n" :=
  Submit_file_records oneFileRequest sampleNet background (ascii "no") []
    [(ascii "int x;", ascii "a.c")] rfl rfl (fun _ => rfl) rfl rfl

theorem uploadFile_extends (conn : List Byte) (c : code) (lang : List Byte) (index : Nat) :
    ∃ rest, (uploadFile conn c lang index).1 = conn ++ rest := by
  unfold uploadFile
  cases c.reader with
  | error err => exact ⟨[], by simp⟩
  | ok buff => exact ⟨fileHeader index lang buff.length c.displayName ++ buff, by simp⟩

theorem uploadBaseCode_extends (ctx : Nat → Bool) (lang : List Byte) (l : List code) :
    ∀ (poll : Nat) (conn : List Byte),
      ∃ rest, (uploadBaseCode ctx lang l poll conn).1 = conn ++ rest := by
  induction l with
  | nil => intro poll conn; exact ⟨[], by simp [uploadBaseCode]⟩
  | cons c l ih =>
    intro poll conn
    unfold uploadBaseCode
    by_cases hc : ctx poll = true
    · exact ⟨[], by simp [hc]⟩
    · obtain ⟨r1, h1⟩ := uploadFile_extends conn c lang 0
      obtain ⟨r2, h2⟩ := ih (poll + 1) (uploadFile conn c lang 0).1
      exact ⟨r1 ++ r2, by rw [if_neg hc, h2, h1, List.append_assoc]⟩

theorem uploadCode_extends (ctx : Nat → Bool) (lang : List Byte) (l : List code) :
    ∀ (index poll : Nat) (conn : List Byte),
      ∃ rest, (uploadCode ctx lang l index poll conn).1 = conn ++ rest := by
  induction l with
  | nil => intro index poll conn; exact ⟨[], by simp [uploadCode]⟩
  | cons c l ih =>
    intro index poll conn
    unfold uploadCode
    by_cases hc : ctx poll = true
    · exact ⟨[], by simp [hc]⟩
    · obtain ⟨r1, h1⟩ := uploadFile_extends conn c lang (index + 1)
      obtain ⟨r2, h2⟩ := ih (index + 1) (poll + 1) (uploadFile conn c lang (index + 1)).1
      exact ⟨r1 ++ r2, by rw [if_neg hc, h2, h1, List.append_assoc]⟩

/-- Whenever the connection opens, `Submit` returns, and what it has written
starts with the six directive lines. -/
theorem Submit_writes_directives (request : MossRequest) (net : Net) (ctx : Nat → Bool)
    (hdial : net.dialErr = none) :
    ∃ out rest, Submit request net ctx = .ret out ∧
      out.written = directives request ++ rest := by
  unfold Submit
  simp only [hdial]
  cases net.ack with
  | error err => exact ⟨_, [], rfl, by simp⟩
  | ok delivered =>
    simp only [ackBuffer_ne_yes, if_false]
    obtain ⟨r1, h1⟩ := uploadBaseCode_extends ctx request.Language request.BaseCode.list 0
      (directives request)
    rcases hb : uploadBaseCode ctx request.Language request.BaseCode.list 0
      (directives request) with ⟨conn1, b1⟩
    rw [hb] at h1
    simp only at h1
    subst h1
    cases b1 with
    | true => exact ⟨_, r1, rfl, rfl⟩
    | false =>
      simp only
      obtain ⟨r2, h2⟩ := uploadCode_extends ctx request.Language request.Code.list 0
        request.BaseCode.list.length (directives request ++ r1)
      rcases hc : uploadCode ctx request.Language request.Code.list 0
        request.BaseCode.list.length (directives request ++ r1) with ⟨conn2, b2⟩
      rw [hc] at h2
      simp only at h2
      subst h2
      cases b2 with
      | true => exact ⟨_, r1 ++ r2, rfl, by simp⟩
      | false =>
        simp only
        cases net.urlParse net.line with
        | error err =>
          exact ⟨_, r1 ++ r2 ++ (ascii "query 0 " ++ request.Comment ++ ascii "\n") ++
            ascii "end\n", rfl, by simp only [List.append_assoc]⟩
        | ok u =>
          exact ⟨_, r1 ++ r2 ++ (ascii "query 0 " ++ request.Comment ++ ascii "\n") ++
            ascii "end\n", rfl, by simp only [List.append_assoc]⟩

theorem directives_NewRequest (id : Nat) :
    directives (NewRequest id) = ascii "moss " ++ fmtDBytes id ++
      ascii "\ndirectory 0\nX 0\nmaxmatches 10\nshow 250\nlanguage c\n" := by
  have h0 : fmtDBytes 0 = ascii "0" := by decide
  have h10 : fmtDBytes 10 = ascii "10" := by decide
  have h250 : fmtDBytes 250 = ascii "250" := by decide
  simp only [directives, NewRequest, h0, h10, h250, List.append_assoc]
  congr 2

/-- C2: `NewRequest(id)` carries the given ID and the defaults, and whenever
the connection opens, `Submit` on it returns and the bytes it has written
start with the six directive lines `moss <id>`, `directory 0`, `X 0`,
`maxmatches 10`, `show 250`, `language c`, in this order. -/
theorem NewRequest_directives (id : Nat) :
    (NewRequest id).ID = id ∧ (NewRequest id).Language = ascii "c" ∧
    (NewRequest id).IgnoreLimit = 10 ∧ (NewRequest id).MatchingNumber = 250 ∧
    (NewRequest id).DirectoryMode = 0 ∧ (NewRequest id).ExperimentalServer = 0 ∧
    ∀ (net : Net) (ctx : Nat → Bool), net.dialErr = none →
      ∃ out rest, Submit (NewRequest id) net ctx = .ret out ∧
        out.written = ascii "moss " ++ fmtDBytes id ++
          ascii "\ndirectory 0\nX 0\nmaxmatches 10\nshow 250\nlanguage c\n" ++ rest := by
  refine ⟨rfl, rfl, rfl, rfl, rfl, rfl, ?_⟩
  intro net ctx hdial
  obtain ⟨out, rest, h1, h2⟩ := Submit_writes_directives (NewRequest id) net ctx hdial
  exact ⟨out, rest, h1, by rw [h2, directives_NewRequest]⟩

theorem NewRequest_directives_witness :
    ∃ out rest, Submit (NewRequest 12345678) sampleNet background = .ret out ∧
      out.written = ascii "moss " ++ fmtDBytes 12345678 ++
        ascii "\ndirectory 0\nX 0\nmaxmatches 10\nshow 250\nlanguage c\n" ++ rest :=
  (NewRequest_directives 12345678).2.2.2.2.2.2 sampleNet background rfl

/-- C3 (the code at the failing input): the server answers the directives with
exactly the three bytes `yes`; `Submit` does not return
`ErrLanguageNotSupported` but writes the `file` header and the content of the
code source, the `query` line and `end`, and returns the URL. -/
theorem Submit_yes_uploads :
    Submit oneFileRequest yesNet background =
      .ret ⟨ascii ("moss 1\ndirectory 0\nX 0\nmaxmatches 10\nshow 250\nlanguage c\n" ++
              "file 1 c 6 a.c\nint x;query 0 \nend\n"),
            some ⟨"http://moss.stanford.edu", "/results/1".toList⟩, none⟩ := by
  decide

/-! ## report.go: link discovery -/

theorem stringsContains_iff (s sub : Text) : stringsContains s sub = true ↔ sub <:+: s := by
  induction s with
  | nil => cases sub <;> simp [stringsContains]
  | cons c cs ih =>
    rw [stringsContains, Bool.or_eq_true, ih, List.infix_cons_iff, List.isPrefixOf_iff_prefix]

theorem findLinksLoop_append (anchors : List Text) :
    ∀ (exist links : List Text),
      findLinksLoop anchors exist links = links ++ findLinksLoop anchors exist [] := by
  induction anchors with
  | nil => intro exist links; simp [findLinksLoop]
  | cons a rest ih =>
    intro exist links
    unfold findLinksLoop
    split
    · rw [ih (a :: exist) (links ++ [a]), ih (a :: exist) ([] ++ [a])]
      simp
    · exact ih exist links

theorem findLinksLoop_cons (a : Text) (rest exist : List Text) :
    findLinksLoop (a :: rest) exist [] =
      if stringsContains a "match".toList = true ∧ a ∉ exist then
        a :: findLinksLoop rest (a :: exist) []
      else findLinksLoop rest exist [] := by
  rw [findLinksLoop]
  cases hp : stringsContains a "match".toList
  · rw [if_neg (by simp), if_neg (by simp)]
  · by_cases hm : a ∈ exist
    · rw [if_neg (by simp [hm]), if_neg (by simp [hm])]
    · rw [if_pos (by simp [hm]), if_pos (by simp [hm]), findLinksLoop_append]
      rfl

theorem indexOf_cons_of_ne (a x : Text) (rest : List Text) (h : a ≠ x) :
    (a :: rest).indexOf x = rest.indexOf x + 1 := by
  rw [List.indexOf_cons, beq_false_of_ne h]
  rfl

theorem indexOf_cons_same (a : Text) (rest : List Text) : (a :: rest).indexOf a = 0 := by
  rw [List.indexOf_cons, beq_self_eq_true a]
  rfl

theorem mem_findLinksLoop (anchors : List Text) :
    ∀ (exist : List Text) (x : Text),
      x ∈ findLinksLoop anchors exist [] ↔
        x ∈ anchors ∧ stringsContains x "match".toList = true ∧ x ∉ exist := by
  induction anchors with
  | nil => intro exist x; simp [findLinksLoop]
  | cons a rest ih =>
    intro exist x
    rw [findLinksLoop_cons]
    split
    · rename_i h
      rw [List.mem_cons, ih, List.mem_cons, List.mem_cons]
      constructor
      · rintro (rfl | ⟨h1, h2, h3⟩)
        · exact ⟨Or.inl rfl, h.1, h.2⟩
        · exact ⟨Or.inr h1, h2, fun hx => h3 (Or.inr hx)⟩
      · rintro ⟨h1 | h1, h2, h3⟩
        · exact Or.inl h1
        · by_cases hxa : x = a
          · exact Or.inl hxa
          · exact Or.inr ⟨h1, h2, fun hx => hx.elim hxa h3⟩
    · rename_i h
      rw [ih, List.mem_cons]
      constructor
      · rintro ⟨h1, h2, h3⟩
        exact ⟨Or.inr h1, h2, h3⟩
      · rintro ⟨h1 | h1, h2, h3⟩
        · subst h1
          exact absurd ⟨h2, h3⟩ h
        · exact ⟨h1, h2, h3⟩

theorem nodup_findLinksLoop (anchors : List Text) :
    ∀ (exist : List Text), (findLinksLoop anchors exist []).Nodup := by
  induction anchors with
  | nil => intro exist; simp [findLinksLoop]
  | cons a rest ih =>
    intro exist
    rw [findLinksLoop_cons]
    split
    · refine List.nodup_cons.mpr ⟨?_, ih _⟩
      rw [mem_findLinksLoop]
      simp
    · exact ih _

theorem pairwise_findLinksLoop (anchors : List Text) :
    ∀ (exist : List Text),
      (findLinksLoop anchors exist []).Pairwise
        (fun x y => anchors.indexOf x < anchors.indexOf y) := by
  induction anchors with
  | nil => intro exist; simp [findLinksLoop]
  | cons a rest ih =>
    intro exist
    rw [findLinksLoop_cons]
    split
    · rename_i h
      refine List.pairwise_cons.mpr ⟨?_, ?_⟩
      · intro y hy
        rw [mem_findLinksLoop] at hy
        have hya : a ≠ y := fun e => hy.2.2 (e ▸ List.mem_cons_self _ _)
        rw [indexOf_cons_same, indexOf_cons_of_ne _ _ _ hya]
        exact Nat.succ_pos _
      · refine (ih (a :: exist)).imp_of_mem ?_
        intro x y hx hy hxy
        rw [mem_findLinksLoop] at hx hy
        have hxa : a ≠ x := fun e => hx.2.2 (e ▸ List.mem_cons_self _ _)
        have hya : a ≠ y := fun e => hy.2.2 (e ▸ List.mem_cons_self _ _)
        rw [indexOf_cons_of_ne _ _ _ hxa, indexOf_cons_of_ne _ _ _ hya]
        exact Nat.succ_lt_succ hxy
    · rename_i h
      refine (ih exist).imp_of_mem ?_
      intro x y hx hy hxy
      rw [mem_findLinksLoop] at hx hy
      have hxa : a ≠ x := fun e => h ⟨e ▸ hx.2.1, e ▸ hx.2.2⟩
      have hya : a ≠ y := fun e => h ⟨e ▸ hy.2.1, e ▸ hy.2.2⟩
      rw [indexOf_cons_of_ne _ _ _ hxa, indexOf_cons_of_ne _ _ _ hya]
      exact Nat.succ_lt_succ hxy

/-- C10: when the index page is fetched and `hrefs` are the hrefs of its
anchors, `findLinks` returns exactly the hrefs that contain `match`, without
duplicates, ordered by their first occurrence in `hrefs`; and hrefs
`[a, b, a, c]`, distinct and all containing `match`, give `[a, b, c]`. -/
theorem findLinks_first_occurrences (web : Web) (ref : URL) (body : Text) (hrefs : List Text)
    (hget : web.get ref = .ok body) (hpage : web.hrefs body = hrefs) :
    (∀ x, x ∈ findLinks web ref ↔ x ∈ hrefs ∧ stringsContains x "match".toList = true) ∧
    (findLinks web ref).Nodup ∧
    (findLinks web ref).Pairwise (fun x y => hrefs.indexOf x < hrefs.indexOf y) ∧
    (∀ a b c : Text, hrefs = [a, b, a, c] →
      stringsContains a "match".toList = true → stringsContains b "match".toList = true →
      stringsContains c "match".toList = true → a ≠ b → a ≠ c → b ≠ c →
      findLinks web ref = [a, b, c]) := by
  have hfl : findLinks web ref = findLinksLoop hrefs [] [] := by
    simp [findLinks, findLinksOf, hget, hpage]
  rw [hfl]
  refine ⟨fun x => ?_, nodup_findLinksLoop hrefs [], pairwise_findLinksLoop hrefs [], ?_⟩
  · rw [mem_findLinksLoop]
    simp
  · intro a b c h ha hb hc hab hac hbc
    subst h
    rw [findLinksLoop_cons, if_pos ⟨ha, by simp⟩, findLinksLoop_cons,
      if_pos ⟨hb, by simp [Ne.symm hab]⟩, findLinksLoop_cons, if_neg (by simp),
      findLinksLoop_cons, if_pos ⟨hc, by simp [Ne.symm hac, Ne.symm hbc]⟩, findLinksLoop]

/-! ## report.go: regions of a match page -/

theorem getD_add_four (a0 a1 a2 a3 : Text) (rest : List Text) (n : Nat) :
    (a0 :: a1 :: a2 :: a3 :: rest).getD (n + 4) [] = rest.getD n [] := rfl

theorem regionLoop_groups (k : Nat) :
    ∀ (anchors : List Text) (left right : List Region),
      anchors.length = 4 * k →
      (∀ j < k, (∃ r, parseRegion (anchors.getD (4 * j) []) = .ok r) ∧
        ∃ r, parseRegion (anchors.getD (4 * j + 2) []) = .ok r) →
      ∃ L R, regionLoop anchors left right = .ret (.ok (left ++ L, right ++ R)) ∧
        L.map Except.ok = (List.range k).map (fun j => parseRegion (anchors.getD (4 * j) [])) ∧
        R.map Except.ok =
          (List.range k).map (fun j => parseRegion (anchors.getD (4 * j + 2) [])) := by
  induction k with
  | zero =>
    intro anchors left right hlen _
    have : anchors = [] := List.length_eq_zero.mp (by omega)
    subst this
    exact ⟨[], [], by simp [regionLoop], rfl, rfl⟩
  | succ k ih =>
    intro anchors left right hlen hvalid
    match anchors, hlen, hvalid with
    | a0 :: a1 :: a2 :: a3 :: rest, hlen, hvalid =>
      obtain ⟨⟨r0, h0⟩, ⟨r2, h2⟩⟩ := hvalid 0 (Nat.succ_pos k)
      simp only [Nat.mul_zero, List.getD_cons_zero, Nat.zero_add, List.getD_cons_succ] at h0 h2
      have hrest : rest.length = 4 * k := by
        simp only [List.length_cons] at hlen
        omega
      have hv : ∀ j < k, (∃ r, parseRegion (rest.getD (4 * j) []) = .ok r) ∧
          ∃ r, parseRegion (rest.getD (4 * j + 2) []) = .ok r := by
        intro j hj
        have := hvalid (j + 1) (Nat.succ_lt_succ hj)
        have e1 : 4 * (j + 1) = 4 * j + 4 := by omega
        have e2 : 4 * (j + 1) + 2 = (4 * j + 2) + 4 := by omega
        rw [e2, e1, getD_add_four, getD_add_four] at this
        exact this
      obtain ⟨L, R, hloop, hL, hR⟩ := ih rest (left ++ [r0]) (right ++ [r2]) hrest hv
      refine ⟨r0 :: L, r2 :: R, ?_, ?_, ?_⟩
      · rw [regionLoop]
        simp only [List.getElem?_cons_succ, List.getElem?_cons_zero, regionPair, h0, h2, hloop,
          List.append_assoc, List.singleton_append]
      · rw [List.range_succ_eq_map, List.map_cons, List.map_cons, List.map_map, hL]
        refine congrArg₂ List.cons h0.symm ?_
        apply List.map_congr_left
        intro j _
        have e1 : 4 * (j + 1) = 4 * j + 4 := by omega
        simp only [Function.comp, Nat.succ_eq_add_one, e1, getD_add_four]
      · rw [List.range_succ_eq_map, List.map_cons, List.map_cons, List.map_map, hR]
        refine congrArg₂ List.cons h2.symm ?_
        apply List.map_congr_left
        intro j _
        have e2 : 4 * (j + 1) + 2 = (4 * j + 2) + 4 := by omega
        simp only [Function.comp, Nat.succ_eq_add_one, e2, getD_add_four]

/-- C9: for a match page whose header cells 0 and 2 give similarities and
whose anchor list has 4k entries with valid region tokens at the positions 4j
and 4j+2 for every j < k, the round of `Extract` builds a match whose
`Left.Regions` and `Right.Regions` have length k, `Left.Regions[j]` being the
region parsed from anchor 4j and `Right.Regions[j]` the one parsed from anchor
4j+2, whatever the other anchors hold. -/
theorem extractMatch_regions (headers anchors : List Text) (k : Nat) (h0 h2 : Text)
    (ls rs : ℚ) (hh0 : headers[0]? = some h0) (hh2 : headers[2]? = some h2)
    (hl : parsePercentage h0 = .ret (.ok ls)) (hr : parsePercentage h2 = .ret (.ok rs))
    (hlen : anchors.length = 4 * k)
    (hvalid : ∀ j < k, (∃ r, parseRegion (anchors.getD (4 * j) []) = .ok r) ∧
      ∃ r, parseRegion (anchors.getD (4 * j + 2) []) = .ok r) :
    ∃ m, extractMatch headers anchors = .ret (.ok m) ∧
      m.Left.Regions.length = k ∧ m.Right.Regions.length = k ∧
      m.Left.Regions.map Except.ok =
        (List.range k).map (fun j => parseRegion (anchors.getD (4 * j) [])) ∧
      m.Right.Regions.map Except.ok =
        (List.range k).map (fun j => parseRegion (anchors.getD (4 * j + 2) [])) := by
  obtain ⟨L, R, hloop, hL, hR⟩ := regionLoop_groups k anchors [] [] hlen hvalid
  refine ⟨⟨⟨parseFilename h0, ls, L⟩, ⟨parseFilename h2, rs, R⟩⟩, ?_, ?_, ?_, hL, hR⟩
  · simp only [extractMatch, hh0, hh2, hl, hr, hloop, List.nil_append]
  · have := congrArg List.length hL
    simpa using this
  · have := congrArg List.length hR
    simpa using this

set_option exponentiation.threshold 1100 in
theorem extractMatch_regions_witness :
    ∃ m, extractMatch (sampleWeb.headerTexts "m".toList) (sampleWeb.anchorTexts "m".toList) =
        .ret (.ok m) ∧
      m.Left.Regions.length = 2 ∧ m.Right.Regions.length = 2 ∧
      m.Left.Regions.map Except.ok = (List.range 2).map
        (fun j => parseRegion ((sampleWeb.anchorTexts "m".toList).getD (4 * j) [])) ∧
      m.Right.Regions.map Except.ok = (List.range 2).map
        (fun j => parseRegion ((sampleWeb.anchorTexts "m".toList).getD (4 * j + 2) [])) :=
  extractMatch_regions (sampleWeb.headerTexts "m".toList) (sampleWeb.anchorTexts "m".toList) 2
    "gomoss/codes/aaa.cpp (82%)".toList "gomoss/codes/bbb.cpp (79%)".toList (82 / 100) (79 / 100)
    rfl rfl rfl rfl rfl (fun j hj => by
      interval_cases j
      · exact ⟨⟨⟨1, 5⟩, rfl⟩, ⟨⟨10, 12⟩, rfl⟩⟩
      · exact ⟨⟨⟨6, 6⟩, rfl⟩, ⟨⟨13, 20⟩, rfl⟩⟩)

set_option exponentiation.threshold 1100 in
/-- The match page of the specification's example: the regions are paired by
position, `[{1,5},{6,6}]` on the left and `[{10,12},{13,20}]` on the right. -/
theorem extractMatch_sample :
    extractMatch (sampleWeb.headerTexts "m".toList) (sampleWeb.anchorTexts "m".toList) =
      .ret (.ok sampleMatch) := by
  rfl

theorem findLinks_first_occurrences_witness :
    (∀ x, x ∈ findLinks sampleWeb sampleRef ↔
      x ∈ sampleWeb.hrefs indexBody ∧ stringsContains x "match".toList = true) ∧
    (findLinks sampleWeb sampleRef).Nodup ∧
    (findLinks sampleWeb sampleRef).Pairwise
      (fun x y => (sampleWeb.hrefs indexBody).indexOf x < (sampleWeb.hrefs indexBody).indexOf y) ∧
    (∀ a b c : Text, sampleWeb.hrefs indexBody = [a, b, a, c] →
      stringsContains a "match".toList = true → stringsContains b "match".toList = true →
      stringsContains c "match".toList = true → a ≠ b → a ≠ c → b ≠ c →
      findLinks sampleWeb sampleRef = [a, b, c]) :=
  findLinks_first_occurrences sampleWeb sampleRef indexBody (sampleWeb.hrefs indexBody) rfl rfl

/-- The links `findLinks` discovers on the sample site. -/
theorem findLinks_sample :
    findLinks sampleWeb sampleRef = ["match0.html".toList, "match1.html".toList] := by
  decide

/-! ## report.go: Extract and cancellation -/

theorem matchPage_of_origin (ref r : URL) (h : r.Origin = ref.Origin) (j : Nat) :
    ({ r with Path := "match".toList ++ fmtD j ++ "-top.html".toList } : URL) =
      matchPage ref j := by
  cases r
  cases ref
  simp only [matchPage] at h ⊢
  rw [h]

theorem extractLoop_cancelled (web : Web) (ctx : Nat → Bool) (ref : URL) (n : Nat) :
    ∀ (links : List Text) (index : Nat) (r : URL) (report : Report) (fetched : List URL),
      n < links.length → r.Origin = ref.Origin →
      ctx (index + n) = true → (∀ j < n, ctx (index + j) = false) →
      (∀ j < n, ∃ res m, web.get (matchPage ref (index + j)) = .ok res ∧
        extractMatch (web.headerTexts res) (web.anchorTexts res) = .ret (.ok m)) →
      extractLoop web ctx links index r report fetched =
        .ret ⟨fetched ++ (List.range n).map (fun j => matchPage ref (index + j)),
          none, none⟩ := by
  induction n with
  | zero =>
    intro links index r report fetched hlen _ hctx _ _
    match links, hlen with
    | _ :: links, _ =>
      rw [extractLoop, if_pos (by simpa using hctx)]
      simp
  | succ n ih =>
    intro links index r report fetched hlen horigin hctx hbefore hpages
    match links, hlen with
    | _ :: links, hlen =>
      obtain ⟨res, m, hget, hm⟩ := hpages 0 (Nat.succ_pos n)
      have h0 : ctx index = false := by simpa using hbefore 0 (Nat.succ_pos n)
      rw [Nat.add_zero] at hget
      rw [extractLoop, if_neg (by simp [h0])]
      simp only [matchPage_of_origin ref r horigin, hget, hm]
      rw [ih links (index + 1) (matchPage ref index) _ _ (by simpa using hlen) rfl
        (by rw [← hctx]; congr 1; omega)
        (fun j hj => by rw [← hbefore (j + 1) (Nat.succ_lt_succ hj)]; congr 1; omega)
        (fun j hj => by
          have := hpages (j + 1) (Nat.succ_lt_succ hj)
          rwa [show index + (j + 1) = index + 1 + j by omega] at this)]
      have hf : (fun j => matchPage ref (index + 1 + j)) =
          (fun j => matchPage ref (index + j)) ∘ Nat.succ := by
        funext j
        simp only [Function.comp, Nat.succ_eq_add_one]
        congr 1
        omega
      rw [List.range_succ_eq_map, List.map_cons, List.map_map, List.append_assoc, hf]
      rfl

theorem extractLoop_complete (web : Web) (ctx : Nat → Bool) (ref : URL) :
    ∀ (links : List Text) (index : Nat) (r : URL) (report : Report) (fetched : List URL)
      (ms : List Match),
      ms.length = links.length → r.Origin = ref.Origin →
      (∀ j < links.length, ctx (index + j) = false) →
      (∀ j (hj : j < ms.length), ∃ res, web.get (matchPage ref (index + j)) = .ok res ∧
        extractMatch (web.headerTexts res) (web.anchorTexts res) = .ret (.ok ms[j])) →
      extractLoop web ctx links index r report fetched =
        .ret ⟨fetched ++ (List.range links.length).map (fun j => matchPage ref (index + j)),
          some ⟨report.Matches ++ ms⟩, none⟩ := by
  intro links
  induction links with
  | nil =>
    intro index r report fetched ms hlen _ _ _
    have : ms = [] := List.length_eq_zero.mp hlen
    subst this
    simp [extractLoop]
  | cons l links ih =>
    intro index r report fetched ms hlen horigin hctx hpages
    match ms, hlen, hpages with
    | m :: ms, hlen, hpages =>
      obtain ⟨res, hget, hm⟩ := hpages 0 (by simp)
      have h0 : ctx index = false := by simpa using hctx 0 (by simp)
      rw [Nat.add_zero] at hget
      simp only [List.getElem_cons_zero] at hm
      rw [extractLoop, if_neg (by simp [h0])]
      simp only [matchPage_of_origin ref r horigin, hget, hm]
      rw [ih (index + 1) (matchPage ref index) _ _ ms (by simpa using hlen) rfl
        (fun j hj => by
          rw [← hctx (j + 1) (by simpa using hj)]
          congr 1
          omega)
        (fun j hj => by
          obtain ⟨res1, hg1, hm1⟩ := hpages (j + 1) (by simpa using hj)
          rw [show index + (j + 1) = index + 1 + j by omega] at hg1
          exact ⟨res1, hg1, by simpa using hm1⟩)]
      have hf : (fun j => matchPage ref (index + 1 + j)) =
          (fun j => matchPage ref (index + j)) ∘ Nat.succ := by
        funext j
        simp only [Function.comp, Nat.succ_eq_add_one]
        congr 1
        omega
      rw [List.length_cons, List.range_succ_eq_map, List.map_cons, List.map_map,
        List.append_assoc, List.append_assoc, hf]
      rfl

/-- With a context that is never cancelled and every match page fetched and
parsed without error, `Extract` returns the Report holding, in discovery
order, the match `extractMatch` builds from each page. -/
theorem Extract_complete (web : Web) (ctx : Nat → Bool) (ref : URL) (ms : List Match)
    (hlen : ms.length = (findLinks web ref).length) (hctx : ∀ k, ctx k = false)
    (hpages : ∀ j (hj : j < ms.length), ∃ res, web.get (matchPage ref j) = .ok res ∧
      extractMatch (web.headerTexts res) (web.anchorTexts res) = .ret (.ok ms[j])) :
    Extract web ctx ref =
      .ret ⟨(List.range (findLinks web ref).length).map (matchPage ref), some ⟨ms⟩, none⟩ := by
  unfold Extract
  rw [extractLoop_complete web ctx ref (findLinks web ref) 0 ref ⟨[]⟩ [] ms hlen rfl
    (fun j _ => hctx _) (by simpa using hpages)]
  simp

/-- C6 as the code has it: when the context is cancelled at the checkpoint
before match i and not earlier, and the pages of the matches 0..i-1 are
fetched and parsed without error, `Extract` returns after requesting exactly
those i pages, with no error and with no Report at all: the matches parsed so
far are dropped. -/
theorem Extract_cancelled (web : Web) (ctx : Nat → Bool) (ref : URL) (i : Nat)
    (hi : i < (findLinks web ref).length)
    (hctx : ctx i = true) (hbefore : ∀ j < i, ctx j = false)
    (hpages : ∀ j < i, ∃ res m, web.get (matchPage ref j) = .ok res ∧
      extractMatch (web.headerTexts res) (web.anchorTexts res) = .ret (.ok m)) :
    Extract web ctx ref = .ret ⟨(List.range i).map (matchPage ref), none, none⟩ := by
  unfold Extract
  rw [extractLoop_cancelled web ctx ref i (findLinks web ref) 0 ref ⟨[]⟩ [] hi rfl
    (by simpa using hctx) (by simpa using hbefore) (by simpa using hpages)]
  simp

set_option exponentiation.threshold 1100 in
theorem Extract_cancelled_witness :
    Extract sampleWeb cancelledAt1 sampleRef =
      .ret ⟨(List.range 1).map (matchPage sampleRef), none, none⟩ :=
  Extract_cancelled sampleWeb cancelledAt1 sampleRef 1 (by decide) rfl (by decide)
    (fun j hj => ⟨"match0-top.html".toList, sampleMatch, by
      have : j = 0 := by omega
      subst this
      exact ⟨rfl, rfl⟩⟩)

set_option exponentiation.threshold 1100 in
/-- C6 fails as stated: on the sample site the context is cancelled at the
checkpoint before match 1, match 0 was fetched and parsed without error, and
`Extract` returns no Report, not the Report holding match 0. -/
theorem cancelled_Extract_drops_matches :
    cancelledAt1 0 = false ∧ cancelledAt1 1 = true ∧
    sampleWeb.get (matchPage sampleRef 0) = .ok "match0-top.html".toList ∧
    extractMatch (sampleWeb.headerTexts "match0-top.html".toList)
      (sampleWeb.anchorTexts "match0-top.html".toList) = .ret (.ok sampleMatch) ∧
    Extract sampleWeb cancelledAt1 sampleRef = .ret ⟨[matchPage sampleRef 0], none, none⟩ ∧
    Extract sampleWeb cancelledAt1 sampleRef ≠
      .ret ⟨[matchPage sampleRef 0], some ⟨[sampleMatch]⟩, none⟩ := by
  have h : Extract sampleWeb cancelledAt1 sampleRef =
      .ret ⟨[matchPage sampleRef 0], none, none⟩ := by rfl
  refine ⟨rfl, rfl, rfl, rfl, h, ?_⟩
  rw [h]
  simp

/-! ## report.go: Download -/

theorem createdFiles_append (l1 l2 : List Event) :
    createdFiles (l1 ++ l2) = createdFiles l1 ++ createdFiles l2 := by
  induction l1 with
  | nil => rfl
  | cons e l ih => cases e <;> simp [createdFiles, ih]

theorem DownloadURL_created (web : Web) (disk : Disk) (log : List Event) (u : URL)
    (filename x : Text) (hx : x ∈ createdFiles (DownloadURL web disk log u filename).1) :
    x ∈ createdFiles log ∨ x = filename := by
  unfold DownloadURL at hx
  cases hg : web.get u with
  | error err =>
    rw [hg] at hx
    simp only [createdFiles_append, createdFiles, List.append_nil] at hx
    exact Or.inl hx
  | ok resp =>
    rw [hg] at hx
    cases hc : disk.create filename with
    | some err =>
      rw [hc] at hx
      simp only [createdFiles_append, createdFiles, List.mem_append, List.mem_singleton] at hx
      exact hx
    | none =>
      rw [hc] at hx
      simp only [createdFiles_append, createdFiles, List.mem_append, List.mem_singleton] at hx
      exact hx

theorem downloadTo_created (web : Web) (disk : Disk) (dirName : Text) (ref : URL)
    (filename : Text) (log out : List Event)
    (h : downloadTo web disk dirName ref filename log = .ret out) (x : Text)
    (hx : x ∈ createdFiles out) :
    x ∈ createdFiles log ∨ x = disk.join dirName filename := by
  unfold downloadTo at h
  cases hm : mustParse web ref filename with
  | panic => rw [hm] at h; cases h
  | ret u =>
    rw [hm] at h
    simp only [Outcome.ret.injEq] at h
    subst h
    exact DownloadURL_created web disk log u _ x hx

theorem andThen_ret {α β : Type} (o : Outcome α) (f : α → Outcome β) (b : β)
    (h : o.andThen f = .ret b) : ∃ a, o = .ret a ∧ f a = .ret b := by
  cases o with
  | panic => cases h
  | ret a => exact ⟨a, rfl, h⟩

/-- Every file the loop of `Download` creates is `match<i>.html` for a loop
index i. -/
theorem downloadLoop_created (web : Web) (disk : Disk) (ctx : Nat → Bool) (dirName : Text) :
    ∀ (links : List Text) (index : Nat) (ref : URL) (log out : List Event),
      downloadLoop web disk ctx dirName links index ref log = .ret out →
      ∀ x ∈ createdFiles out, x ∈ createdFiles log ∨
        ∃ i, index ≤ i ∧ i < index + links.length ∧
          x = disk.join dirName ("match".toList ++ fmtD i ++ ".html".toList) := by
  intro links
  induction links with
  | nil =>
    intro index ref log out h x hx
    simp only [downloadLoop, Outcome.ret.injEq] at h
    subst h
    exact Or.inl hx
  | cons l links ih =>
    intro index ref log out h x hx
    rw [downloadLoop] at h
    split at h
    · simp only [Outcome.ret.injEq] at h
      subst h
      exact Or.inl hx
    · obtain ⟨log1, h1, h⟩ := andThen_ret _ _ _ h
      obtain ⟨log2, h2, h⟩ := andThen_ret _ _ _ h
      obtain ⟨log3, h3, h⟩ := andThen_ret _ _ _ h
      obtain ⟨log4, h4, h⟩ := andThen_ret _ _ _ h
      have here : ∃ i, index ≤ i ∧ i < index + (l :: links).length ∧
          disk.join dirName ("match".toList ++ fmtD index ++ ".html".toList) =
            disk.join dirName ("match".toList ++ fmtD i ++ ".html".toList) :=
        ⟨index, Nat.le_refl _, by simp, rfl⟩
      rcases ih (index + 1) _ log4 out h x hx with hx4 | ⟨i, hi1, hi2, hi3⟩
      · rcases downloadTo_created _ _ _ _ _ _ _ h4 x hx4 with hx3 | e
        · rcases downloadTo_created _ _ _ _ _ _ _ h3 x hx3 with hx2 | e
          · rcases downloadTo_created _ _ _ _ _ _ _ h2 x hx2 with hx1 | e
            · rcases downloadTo_created _ _ _ _ _ _ _ h1 x hx1 with hx0 | e
              · exact Or.inl hx0
              · exact Or.inr (e ▸ here)
            · exact Or.inr (e ▸ here)
          · exact Or.inr (e ▸ here)
        · exact Or.inr (e ▸ here)
      · exact Or.inr ⟨i, by omega, by simp only [List.length_cons]; omega, hi3⟩

/-- Whatever the site, the disk and the context: every file `Download`
creates is `index.html` or `match<i>.html` for the index i of a discovered
link; it creates at most n+1 distinct files and never one named
`match<i>-top.html`, `match<i>-0.html` or `match<i>-1.html`. -/
theorem Download_created (web : Web) (disk : Disk) (ctx : Nat → Bool) (ref : URL)
    (dirName : Text) (out : Downloaded)
    (h : Download web disk ctx ref dirName = .ret out) :
    ∀ x ∈ createdFiles out.log, x = disk.join dirName "index.html".toList ∨
      ∃ i, i < (findLinks web ref).length ∧
        x = disk.join dirName ("match".toList ++ fmtD i ++ ".html".toList) := by
  intro x hx
  unfold Download at h
  split at h
  · simp only [Outcome.ret.injEq] at h
    subst h
    simp [createdFiles] at hx
  · simp only [Outcome.ret.injEq] at h
    subst h
    simp [createdFiles] at hx
  · obtain ⟨log1, h1, h⟩ := andThen_ret _ _ _ h
    obtain ⟨log2, h2, h⟩ := andThen_ret _ _ _ h
    simp only [Outcome.ret.injEq] at h
    subst h
    rcases downloadLoop_created web disk ctx dirName _ _ _ _ _ h2 x hx with hx1 | ⟨i, _, hi, e⟩
    · rcases downloadTo_created _ _ _ _ _ _ _ h1 x hx1 with hx0 | e
      · simp [createdFiles] at hx0
      · exact Or.inl e
    · exact Or.inr ⟨i, by simpa using hi, e⟩

/-- C5 (the code at a failing input): on the sample site with two discovered
links and an existing directory, `Download` returns without error after
requesting `index.html` and then four times `match0.html` and four times
`match1.html`, each time writing to the file of that name: three distinct
files, and no page or file `match<i>-top.html`, `match<i>-0.html` or
`match<i>-1.html`. -/
theorem Download_repeats_match_page :
    (Download sampleWeb sampleDisk background sampleRef "moss".toList).returned.map
        (fun out => (out.err, requested out.log, createdFiles out.log)) =
      some (none,
        [sampleRef, ⟨"http://127.0.0.1:8080", "/index.html".toList⟩,
          ⟨"http://127.0.0.1:8080", "/match0.html".toList⟩,
          ⟨"http://127.0.0.1:8080", "/match0.html".toList⟩,
          ⟨"http://127.0.0.1:8080", "/match0.html".toList⟩,
          ⟨"http://127.0.0.1:8080", "/match0.html".toList⟩,
          ⟨"http://127.0.0.1:8080", "/match1.html".toList⟩,
          ⟨"http://127.0.0.1:8080", "/match1.html".toList⟩,
          ⟨"http://127.0.0.1:8080", "/match1.html".toList⟩,
          ⟨"http://127.0.0.1:8080", "/match1.html".toList⟩],
        ["moss/index.html".toList,
          "moss/match0.html".toList, "moss/match0.html".toList,
          "moss/match0.html".toList, "moss/match0.html".toList,
          "moss/match1.html".toList, "moss/match1.html".toList,
          "moss/match1.html".toList, "moss/match1.html".toList]) := by
  decide

/-! ## Decimal rendering -/

theorem toDigitsCore_acc (fuel : Nat) :
    ∀ (n : Nat) (acc : List Char),
      Nat.toDigitsCore 10 fuel n acc = Nat.toDigitsCore 10 fuel n [] ++ acc := by
  induction fuel with
  | zero => intro n acc; simp [Nat.toDigitsCore]
  | succ fuel ih =>
    intro n acc
    simp only [Nat.toDigitsCore]
    split
    · simp
    · rw [ih (n / 10) (Nat.digitChar (n % 10) :: acc), ih (n / 10) [Nat.digitChar (n % 10)]]
      simp

theorem toDigitsCore_fuel (fuel1 : Nat) :
    ∀ (fuel2 n : Nat), n < fuel1 → n < fuel2 →
      Nat.toDigitsCore 10 fuel1 n [] = Nat.toDigitsCore 10 fuel2 n [] := by
  induction fuel1 with
  | zero => intro fuel2 n h; omega
  | succ fuel1 ih =>
    intro fuel2 n h1 h2
    match fuel2, h2 with
    | fuel2 + 1, h2 =>
      simp only [Nat.toDigitsCore]
      split
      · rfl
      · rename_i hn
        rw [toDigitsCore_acc fuel1, toDigitsCore_acc fuel2,
          ih fuel2 (n / 10) (by omega) (by omega)]

theorem fmtD_lt (n : Nat) (h : n < 10) : fmtD n = [Nat.digitChar n] := by
  have h0 : n / 10 = 0 := by omega
  have h1 : n % 10 = n := by omega
  simp [fmtD, Nat.toDigits, Nat.toDigitsCore, h0, h1]

theorem fmtD_ge (n : Nat) (h : 10 ≤ n) : fmtD n = fmtD (n / 10) ++ [Nat.digitChar (n % 10)] := by
  have h0 : n / 10 ≠ 0 := by omega
  have e : fmtD n = Nat.toDigitsCore 10 n (n / 10) [Nat.digitChar (n % 10)] := by
    show Nat.toDigitsCore 10 (n + 1) n [] = _
    rw [Nat.toDigitsCore, if_neg h0]
  rw [e, toDigitsCore_acc, toDigitsCore_fuel n (n / 10 + 1) (n / 10) (by omega) (by omega)]
  rfl

theorem digitChar_toNat (d : Nat) (h : d < 10) : (Nat.digitChar d).toNat = 48 + d := by
  interval_cases d <;> rfl

theorem isDigit_digitChar (d : Nat) (h : d < 10) : isDigit (Nat.digitChar d) = true := by
  simp only [isDigit, digitChar_toNat d h, Bool.and_eq_true, decide_eq_true_eq]
  omega

theorem digitOf_digitChar (d : Nat) (h : d < 10) : digitOf (Nat.digitChar d) = some d := by
  rw [digitOf, digitChar_toNat d h, if_pos (by omega)]
  simp

theorem fmtD_digits (n : Nat) : ∀ c ∈ fmtD n, isDigit c = true := by
  induction n using Nat.strong_induction_on with
  | _ n ih =>
    by_cases h : n < 10
    · rw [fmtD_lt n h]
      simpa using isDigit_digitChar n h
    · rw [fmtD_ge n (by omega)]
      intro c hc
      rcases List.mem_append.mp hc with hc | hc
      · exact ih (n / 10) (by omega) c hc
      · rw [List.mem_singleton.mp hc]
        exact isDigit_digitChar _ (Nat.mod_lt _ (by omega))

theorem fmtD_cons (n : Nat) : ∃ c cs, fmtD n = c :: cs ∧ isDigit c = true := by
  have hd := fmtD_digits n
  cases hf : fmtD n with
  | nil =>
    by_cases h : n < 10
    · rw [fmtD_lt n h] at hf
      cases hf
    · rw [fmtD_ge n (by omega)] at hf
      simp at hf
  | cons c cs => exact ⟨c, cs, rfl, hd c (by rw [hf]; exact List.mem_cons_self _ _)⟩

theorem ParseUintLoop_digitChar (d n : Nat) (cs : Text) (hd : d < 10)
    (hn : n * 10 + d ≤ 2 ^ 32 - 1) :
    ParseUintLoop (2 ^ 32 - 1) (Nat.digitChar d :: cs) n =
      ParseUintLoop (2 ^ 32 - 1) cs (n * 10 + d) := by
  have h1 : ¬ d ≥ 10 := by omega
  have h2 : ¬ n ≥ (2 ^ 64 - 1) / 10 + 1 := by norm_num at hn ⊢; omega
  have h3 : (n * 10) % 2 ^ 64 = n * 10 := Nat.mod_eq_of_lt (by norm_num at hn ⊢; omega)
  have h4 : (n * 10 + d) % 2 ^ 64 = n * 10 + d := Nat.mod_eq_of_lt (by norm_num at hn ⊢; omega)
  have h5 : ¬ (n * 10 + d < n * 10 ∨ n * 10 + d > 2 ^ 32 - 1) := by omega
  rw [ParseUintLoop]
  simp only [digitOf_digitChar d hd, h1, h2, h3, h4, h5, if_false]

theorem ParseUintLoop_fmtD (n : Nat) :
    ∀ (cs : Text), n ≤ 2 ^ 32 - 1 →
      ParseUintLoop (2 ^ 32 - 1) (fmtD n ++ cs) 0 = ParseUintLoop (2 ^ 32 - 1) cs n := by
  induction n using Nat.strong_induction_on with
  | _ n ih =>
    intro cs hn
    by_cases h : n < 10
    · rw [fmtD_lt n h, List.singleton_append, ParseUintLoop_digitChar n 0 cs h (by omega)]
      simp
    · rw [fmtD_ge n (by omega), List.append_assoc, List.singleton_append,
        ih (n / 10) (by omega) _ (by omega),
        ParseUintLoop_digitChar (n % 10) (n / 10) cs (Nat.mod_lt _ (by omega)) (by omega)]
      congr 1
      omega

theorem ParseInt_fmtD (n : Nat) (hn : n < 2 ^ 31) : ParseInt (fmtD n) 32 = ((n : Int), none) := by
  obtain ⟨c, cs, hf, hc⟩ := fmtD_cons n
  have hu : ParseUint (c :: cs) 32 = (n, none) := by
    have := ParseUintLoop_fmtD n [] (by omega)
    rw [List.append_nil, hf] at this
    rw [ParseUint, if_neg (by simp), this, ParseUintLoop]
  have hplus : c ≠ '+' := by rintro rfl; revert hc; decide
  have hminus : c ≠ '-' := by rintro rfl; revert hc; decide
  have hlt : ¬ (n ≥ 2 ^ (32 - 1)) := by norm_num at hn ⊢; omega
  rw [hf]
  simp only [ParseInt, hplus, hminus, or_self, if_false, hu, decide_False, Bool.not_false,
    true_and, hlt, Bool.false_eq_true, false_and]

theorem foldl_digits_fmtD (n : Nat) :
    ∀ (cs : Text), List.foldl (fun m c => 10 * m + (c.toNat - 48)) 0 (fmtD n ++ cs) =
      List.foldl (fun m c => 10 * m + (c.toNat - 48)) n cs := by
  induction n using Nat.strong_induction_on with
  | _ n ih =>
    intro cs
    by_cases h : n < 10
    · rw [fmtD_lt n h]
      simp [digitChar_toNat n h]
    · rw [fmtD_ge n (by omega), List.append_assoc, List.singleton_append, ih (n / 10) (by omega),
        List.foldl_cons, digitChar_toNat _ (Nat.mod_lt _ (by omega))]
      congr 1
      omega

theorem digitsValue_fmtD (n : Nat) : digitsValue (fmtD n) = n := by
  have := foldl_digits_fmtD n []
  simpa [digitsValue] using this

/-! ## report.go: parseRegion -/

theorem stringsSplit_ne_nil (sep : Char) (s : Text) : stringsSplit sep s ≠ [] := by
  cases s with
  | nil => simp [stringsSplit]
  | cons c cs =>
    rw [stringsSplit]
    split
    · simp
    · split <;> simp

theorem stringsSplit_of_not_mem (sep : Char) (x : Text) (h : sep ∉ x) :
    stringsSplit sep x = [x] := by
  induction x with
  | nil => rfl
  | cons c cs ih =>
    have hc : c ≠ sep := fun e => h (e ▸ List.mem_cons_self _ _)
    rw [stringsSplit, if_neg hc, ih (fun hm => h (List.mem_cons_of_mem _ hm))]

theorem stringsSplit_append (sep : Char) (x y : Text) (h : sep ∉ x) :
    stringsSplit sep (x ++ sep :: y) = x :: stringsSplit sep y := by
  induction x with
  | nil => simp [stringsSplit]
  | cons c cs ih =>
    have hc : c ≠ sep := fun e => h (e ▸ List.mem_cons_self _ _)
    rw [List.cons_append, stringsSplit, if_neg hc, ih (fun hm => h (List.mem_cons_of_mem _ hm))]

theorem stringsSplit_length (sep : Char) (s : Text) :
    (stringsSplit sep s).length = s.count sep + 1 := by
  induction s with
  | nil => rfl
  | cons c cs ih =>
    rw [stringsSplit]
    by_cases hc : c = sep
    · subst hc
      rw [if_pos rfl, List.length_cons, ih, List.count_cons_self]
    · rw [if_neg hc, List.count_cons_of_ne (fun e => hc e.symm)]
      cases hs : stringsSplit sep cs with
      | nil => exact absurd hs (stringsSplit_ne_nil sep cs)
      | cons piece pieces =>
        rw [hs] at ih
        simpa using ih

theorem exists_split_of_count_one (sep : Char) (s : Text) (h : s.count sep = 1) :
    ∃ x y, s = x ++ sep :: y ∧ sep ∉ x ∧ sep ∉ y := by
  induction s with
  | nil => simp at h
  | cons c cs ih =>
    by_cases hc : c = sep
    · subst hc
      rw [List.count_cons_self] at h
      exact ⟨[], cs, rfl, by simp, List.count_eq_zero.mp (by omega)⟩
    · rw [List.count_cons_of_ne (fun e => hc e.symm)] at h
      obtain ⟨x, y, hs, hx, hy⟩ := ih h
      refine ⟨c :: x, y, by rw [hs]; rfl, ?_, hy⟩
      intro hm
      rcases List.mem_cons.mp hm with e | e
      · exact hc e.symm
      · exact hx e

/-- The result `parseRegion` builds from the two calls of `ParseInt`. -/
theorem parseRegion_split (x y : Text) (hx : '-' ∉ x) (hy : '-' ∉ y) :
    parseRegion (x ++ '-' :: y) =
      match ParseInt x 32, ParseInt y 32 with
      | (_, some err), _ => .error err
      | (_, none), (_, some err) => .error err
      | (from_, none), (to_, none) => .ok ⟨from_, to_⟩ := by
  rw [parseRegion, stringsSplit_append '-' x y hx, stringsSplit_of_not_mem '-' y hy]
  simp only
  rcases ParseInt x 32 with ⟨v1, _ | e1⟩ <;> rcases ParseInt y 32 with ⟨v2, _ | e2⟩ <;> rfl

theorem ParseInt_error_kind (s : Text) (bitSize : Nat) (v : Int) (err : Error)
    (h : ParseInt s bitSize = (v, some err)) :
    err = .numErrSyntactic ∨ err = .numErrRange := by
  unfold ParseInt at h
  cases s with
  | nil =>
    simp only [Prod.mk.injEq, Option.some.injEq] at h
    exact Or.inl h.2.symm
  | cons c0 rest =>
    simp only at h
    generalize ParseUint (if c0 = '+' ∨ c0 = '-' then rest else c0 :: rest) bitSize = r at h
    rcases r with ⟨un, _ | e⟩
    · simp only at h
      split_ifs at h <;>
        simp only [Prod.mk.injEq, Option.some.injEq, reduceCtorEq, and_false] at h <;>
        exact Or.inr h.2.symm
    · cases e <;> simp only at h <;> (try split_ifs at h) <;>
        simp only [Prod.mk.injEq, Option.some.injEq, reduceCtorEq, and_false] at h <;>
        first
          | exact Or.inl h.2.symm
          | exact Or.inr h.2.symm

theorem not_mem_fmtD (n : Nat) : '-' ∉ fmtD n := by
  intro h
  have := fmtD_digits n _ h
  revert this
  decide

/-- C7 as the code has it: for all integers a and b with
0 <= a <= b <= 2147483647, the token made of the decimal text of a, a `-` and
the decimal text of b is parsed by `parseRegion` without error into the Region
with From = a and To = b. -/
theorem parseRegion_token (a b : Int) (ha : 0 ≤ a) (hab : a ≤ b) (hb : b ≤ 2147483647) :
    parseRegion (regionToken a b) = .ok ⟨a, b⟩ := by
  have ha' : ¬ a < 0 := by omega
  have hb' : ¬ b < 0 := by omega
  rw [regionToken, decimalText, decimalText, if_neg ha', if_neg hb',
    parseRegion_split _ _ (not_mem_fmtD _) (not_mem_fmtD _),
    ParseInt_fmtD a.natAbs (by norm_num; omega), ParseInt_fmtD b.natAbs (by norm_num; omega)]
  simp only [Int.natCast_natAbs, abs_of_nonneg ha, abs_of_nonneg (le_trans ha hab)]

theorem parseRegion_token_witness :
    parseRegion (regionToken 13 20) = .ok ⟨13, 20⟩ :=
  parseRegion_token 13 20 (by decide) (by decide) (by decide)

/-- C7 fails as stated: with a = -1 <= b = 1 the token `-1-1` holds two
separators and is rejected with ErrInvalidRegion, and with
a = 0 <= b = 2147483648 the token is rejected with a range error. -/
theorem regionToken_rejected :
    ((-1 : Int) ≤ 1 ∧ parseRegion (regionToken (-1) 1) = .error .ErrInvalidRegion) ∧
    ((0 : Int) ≤ 2147483648 ∧
      parseRegion (regionToken 0 2147483648) = .error .numErrRange) := by
  decide

/-- C8 as the code has it: `parseRegion` returns ErrInvalidRegion exactly for
the texts that do not hold exactly one `-`; for a text `x-y` with one
separator it returns the error of the first call of `strconv.ParseInt` that
fails on `x` or `y`, an error of strconv and not ErrInvalidRegion, and when
both calls succeed the Region of the two values in the order read: the bounds
are not compared. -/
theorem parseRegion_classes (text : Text) :
    (parseRegion text = .error .ErrInvalidRegion ↔ text.count '-' ≠ 1) ∧
    (∀ x y : Text, text = x ++ '-' :: y → '-' ∉ x → '-' ∉ y →
      parseRegion text =
        match ParseInt x 32, ParseInt y 32 with
        | (_, some err), _ => .error err
        | (_, none), (_, some err) => .error err
        | (from_, none), (to_, none) => .ok ⟨from_, to_⟩) := by
  constructor
  · constructor
    · intro h hc
      obtain ⟨x, y, hs, hx, hy⟩ := exists_split_of_count_one '-' text hc
      rw [hs, parseRegion_split x y hx hy] at h
      rcases h1 : ParseInt x 32 with ⟨v1, _ | e1⟩ <;>
        rcases h2 : ParseInt y 32 with ⟨v2, _ | e2⟩ <;> rw [h1, h2] at h <;>
        simp only [Except.error.injEq, reduceCtorEq] at h
      · subst h
        rcases ParseInt_error_kind _ _ _ _ h2 with e | e <;> cases e
      · subst h
        rcases ParseInt_error_kind _ _ _ _ h1 with e | e <;> cases e
      · subst h
        rcases ParseInt_error_kind _ _ _ _ h1 with e | e <;> cases e
    · intro hc
      have hl := stringsSplit_length '-' text
      rw [parseRegion]
      split
      · rename_i h2
        rw [h2] at hl
        simp only [List.length_cons, List.length_nil] at hl
        omega
      · rfl
  · intro x y hs hx hy
    rw [hs, parseRegion_split x y hx hy]

theorem parseRegion_classes_witness :
    parseRegion "5-3".toList =
      match ParseInt "5".toList 32, ParseInt "3".toList 32 with
      | (_, some err), _ => .error err
      | (_, none), (_, some err) => .error err
      | (from_, none), (to_, none) => .ok ⟨from_, to_⟩ :=
  (parseRegion_classes "5-3".toList).2 "5".toList "3".toList rfl (by decide) (by decide)

/-- C8 fails as stated: the out-of-order token `5-3` is returned as the Region
with From = 5 > To = 3, and the token `a-1`, whose left side is not an integer,
is rejected with a syntax error of strconv, not with ErrInvalidRegion. -/
theorem parseRegion_out_of_order :
    parseRegion "5-3".toList = .ok ⟨5, 3⟩ ∧
    parseRegion "a-1".toList = .error .numErrSyntactic ∧
    Error.numErrSyntactic ≠ Error.ErrInvalidRegion := by
  decide

/-! ## report.go: header descriptors -/

theorem lastParen_append_paren (xs : Text) (h : '\n' ∉ xs) :
    lastParen (xs ++ [')']) = some (xs.length + 1) := by
  induction xs with
  | nil => simp [lastParen]
  | cons c cs ih =>
    have hc : c ≠ '\n' := fun e => h (e ▸ List.mem_cons_self _ _)
    rw [List.cons_append, lastParen, if_neg hc, ih (fun hm => h (List.mem_cons_of_mem _ hm))]
    rfl

theorem removeParens_skip (cs : Text) : ∀ k, cs.length ≤ k → removeParens k cs = [] := by
  induction cs with
  | nil => intro k _; cases k <;> rfl
  | cons c cs ih =>
    intro k hk
    match k, hk with
    | k + 1, hk =>
      rw [removeParens]
      exact ih k (by simpa using hk)

theorem removeParens_descriptor (ds : Text) (hds : ∀ c ∈ ds, isDigit c = true) :
    ∀ (n : Text), stringsContains n " (".toList = false →
      removeParens 0 (n ++ (' ' :: '(' :: (ds ++ ['%', ')']))) = n := by
  have hnl : '\n' ∉ ds ++ ['%'] := by
    intro h
    rcases List.mem_append.mp h with h | h
    · have := hds _ h
      revert this
      decide
    · revert h
      decide
  have hlast : lastParen (ds ++ ['%', ')']) = some (ds.length + 2) := by
    have := lastParen_append_paren (ds ++ ['%']) hnl
    simpa using this
  intro n
  induction n with
  | nil =>
    intro _
    rw [List.nil_append, removeParens, parenMatch, if_pos ⟨rfl, rfl⟩, hlast]
    exact removeParens_skip _ _ (by simp)
  | cons c cs ih =>
    intro h
    rw [stringsContains, Bool.or_eq_false_iff] at h
    have hnone : parenMatch (c :: (cs ++ (' ' :: '(' :: (ds ++ ['%', ')'])))) = none := by
      cases cs with
      | nil =>
        rw [List.nil_append, parenMatch, if_neg]
        rintro ⟨_, h2⟩
        revert h2
        decide
      | cons d cs' =>
        rw [List.cons_append, parenMatch, if_neg]
        rintro ⟨h1, h2⟩
        subst h1 h2
        have := h.1
        revert this
        simp [List.isPrefixOf]
    rw [List.cons_append, removeParens, hnone, ih h.2]

theorem head_dropWhile_append (xs ys : Text) (hy : ∀ y, ys.head? = some y → isDigit y = false)
    (hx : (xs.dropWhile isDigit).head? ≠ some '%') (hys : ys.head? ≠ some '%') :
    ((xs ++ ys).dropWhile isDigit).head? ≠ some '%' := by
  rw [List.dropWhile_append]
  split
  · cases ys with
    | nil => simp
    | cons y ys' =>
      have := hy y rfl
      rw [List.dropWhile_cons, this]
      simpa using hys
  · rename_i hne
    cases hd : xs.dropWhile isDigit with
    | nil => simp [hd] at hne
    | cons x r =>
      rw [hd] at hx
      simpa using hx

theorem findPercent_descriptor (d : Char) (ds : Text) (hd : isDigit d = true)
    (hds : ∀ c ∈ ds, isDigit c = true) :
    ∀ (n : Text), findPercent n = [] →
      findPercent (n ++ (' ' :: '(' :: (d :: ds ++ ['%', ')']))) = d :: ds ++ ['%'] := by
  intro n
  induction n with
  | nil =>
    intro _
    have hsp : isDigit ' ' ≠ true := by decide
    have hpa : isDigit '(' ≠ true := by decide
    rw [List.nil_append, findPercent, if_neg (fun h => hsp h.1), findPercent,
      if_neg (fun h => hpa h.1)]
    rw [List.cons_append, findPercent, if_pos, List.takeWhile_append_of_pos hds]
    · simp [isDigit]
    · refine ⟨hd, ?_⟩
      rw [List.dropWhile_append_of_pos hds]
      rfl
  | cons c cs ih =>
    intro h
    rw [findPercent] at h
    split at h
    · simp at h
    · rename_i hc
      rw [List.cons_append, findPercent, if_neg, ih h]
      rintro ⟨h1, h2⟩
      refine head_dropWhile_append cs _ ?_ (fun h3 => hc ⟨h1, h3⟩) (by simp) h2
      intro y hy
      simp only [List.head?_cons, Option.some.injEq] at hy
      subst hy
      rfl

set_option exponentiation.threshold 1100 in
theorem ParseFloat_fmtD (p : Nat) (hp : p ≤ 100) : ParseFloat (fmtD p) = ((p : ℚ), none) := by
  obtain ⟨c, cs, hf, _⟩ := fmtD_cons p
  have hne : fmtD p ≠ [] := by rw [hf]; simp
  have hall : (fmtD p).all isDigit = true := List.all_eq_true.mpr (fmtD_digits p)
  have hbig : ¬ (p ≥ 2 ^ 1024 - 2 ^ 970) := by
    have : (101 : Nat) ≤ 2 ^ 1024 - 2 ^ 970 := by norm_num
    omega
  rw [ParseFloat, if_neg (by simp [hne, hall]), digitsValue_fmtD, if_neg hbig]

/-- C4 as the code has it: for every display name n that holds neither the
two characters ` (` nor a digit run followed by `%`, and every percentage p
with 0 <= p <= 100, on the descriptor `n (p%)` `parseFilename` returns exactly
n and `parsePercentage` returns the ratio p/100 without error. -/
theorem descriptor_parsed (n : Text) (p : Nat) (hp : p ≤ 100)
    (hparen : stringsContains n " (".toList = false) (hpercent : findPercent n = []) :
    parseFilename (descriptor n p) = n ∧
    parsePercentage (descriptor n p) = .ret (.ok ((p : ℚ) / 100)) := by
  obtain ⟨d, ds, hf, hd⟩ := fmtD_cons p
  have hds : ∀ c ∈ ds, isDigit c = true := fun c hc =>
    fmtD_digits p c (by rw [hf]; exact List.mem_cons_of_mem _ hc)
  constructor
  · exact removeParens_descriptor (fmtD p) (fmtD_digits p) n hparen
  · have hfp : findPercent (descriptor n p) = fmtD p ++ ['%'] := by
      rw [descriptor, hf]
      exact findPercent_descriptor d ds hd hds n hpercent
    rw [parsePercentage]
    simp only [hfp, List.dropLast_concat, ParseFloat_fmtD p hp]
    rw [if_neg (by simp)]

theorem descriptor_parsed_witness :
    parseFilename (descriptor "gomoss/codes/aaa.cpp".toList 82) = "gomoss/codes/aaa.cpp".toList ∧
    parsePercentage (descriptor "gomoss/codes/aaa.cpp".toList 82) =
      .ret (.ok (((82 : Nat) : ℚ) / 100)) :=
  descriptor_parsed "gomoss/codes/aaa.cpp".toList 82 (by decide) (by decide) (by decide)

set_option exponentiation.threshold 1100 in
/-- C4 fails as stated: for the display name `a (b` the file name parsed from
`a (b (82%)` is `a`, and for the display name `50% off` the similarity parsed
from `50% off (82%)` is 50/100, not 82/100. -/
theorem descriptor_misparsed :
    parseFilename (descriptor "a (b".toList 82) = "a".toList ∧
    "a".toList ≠ "a (b".toList ∧
    parsePercentage (descriptor "50% off".toList 82) = .ret (.ok (50 / 100)) ∧
    (50 / 100 : ℚ) ≠ 82 / 100 := by
  refine ⟨by decide, by decide, by rfl, by norm_num⟩

end Gomoss
